import Mathlib

/-!
Verification of the props-rs properties-file parser (src/parser.rs and
src/lib.rs).

The input buffer is a list of bytes (`List Nat`).  A nom parser over a byte
slice is modeled as a function from the remaining input to
`Option (remaining input, produced value)`; `none` plays the role of a nom
`Err` (no `Incomplete` or `Failure` value is ever produced by this grammar,
since only the `complete` flavors of the nom primitives are used).

The nom looping combinators (`many0`, `many1`, `separated_list0`,
`separated_list1`, `many_till`) iterate their argument parsers; each of them
aborts with an error as soon as one iteration succeeds without consuming
input (nom's built-in infinite-loop check), so a run can never take more
iterations than the length of its input.  They are embedded here with an
explicit fuel argument, and every named rule instantiates the fuel of its
loops with the length of the loop's input plus one; the stability theorems
below show that past this bound the result no longer depends on the fuel.

The `HashMap` built by `to_map` in src/lib.rs is modeled as an association
list without duplicate keys, where `insertKV` (the model of
`HashMap::insert`) overwrites the entry of an existing key in place and
appends a fresh key at the end.
-/

namespace PropsRs

abbrev Input := List Nat

def Parser (α : Type) : Type := Input → Option (Input × α)

/-- Model of a parser that consumes nothing and returns `v`. -/
def ppure (v : α) : Parser α := fun i => some (i, v)

/-- Sequencing of parsers, the model of the `?`-chains in the source. -/
def pbind (p : Parser α) (f : α → Parser β) : Parser β := fun i =>
  match p i with
  | none => none
  | some (r, v) => f v r

/-- Model of nom `alt` with two branches: `q` runs iff `p` fails. -/
def pAlt (p q : Parser α) : Parser α := fun i =>
  match p i with
  | none => q i
  | some rv => some rv

/-- Model of nom `combinator::value`: run `p`, replace its output by `v`. -/
def pvalue (v : β) (p : Parser α) : Parser β := pbind p fun _ => ppure v

/-- Model of nom `combinator::opt`: always succeeds, wrapping in `Option`. -/
def pOpt (p : Parser α) : Parser (Option α) := fun i =>
  match p i with
  | none => some (i, none)
  | some (r, v) => some (r, some v)

/-- Model of nom `bytes::complete::tag`. -/
def ptag (t : Input) : Parser Unit := fun i =>
  if t.isPrefixOf i then some (i.drop t.length, ()) else none

/-- Model of nom `character::complete::one_of` (bytes read as latin-1). -/
def pOneOf (cs : List Nat) : Parser Nat := fun i =>
  match i with
  | [] => none
  | c :: r => if c ∈ cs then some (r, c) else none

/-- Model of nom `character::complete::none_of` (bytes read as latin-1). -/
def pNoneOf (cs : List Nat) : Parser Nat := fun i =>
  match i with
  | [] => none
  | c :: r => if c ∈ cs then none else some (r, c)

/-- Model of nom `bytes::complete::take_till`: consume until `f` holds. -/
def pTakeTill (f : Nat → Bool) : Parser Input := fun i =>
  some (i.dropWhile (fun c => !(f c)), i.takeWhile (fun c => !(f c)))

/-- Model of nom `combinator::eof`: succeeds exactly at end of input,
returning the (empty) remaining input. -/
def pEof : Parser Input := fun i =>
  match i with
  | [] => some ([], [])
  | _ => none

/-- Fueled model of nom `multi::many0`, including its infinite-loop check:
an iteration of `p` that succeeds without consuming input is an error. -/
def many0F (p : Parser α) : Nat → Input → Option (Input × List α)
  | 0, _ => none
  | fuel + 1, i =>
    match p i with
    | none => some (i, [])
    | some (i1, o) =>
      if i1.length = i.length then none
      else
        match many0F p fuel i1 with
        | none => none
        | some (r, os) => some (r, o :: os)

/-- nom `many0` with the canonical fuel (one more than the input length). -/
def pmany0 (p : Parser α) : Parser (List α) := fun i => many0F p (i.length + 1) i

/-- nom `many1`: a first mandatory element followed by a `many0`-style loop
(the loop check applies to every iteration after the first). -/
def pmany1 (p : Parser α) : Parser (List α) := fun i =>
  match p i with
  | none => none
  | some (i1, o) =>
    match many0F p (i1.length + 1) i1 with
    | none => none
    | some (r, os) => some (r, o :: os)

/-- Fueled model of the loop shared by nom `separated_list0` and
`separated_list1` after their first element: a separator that succeeds
without consuming input is an error, a failing separator or element ends
the loop with the input rewound to before the separator. -/
def sepLoopF (sep : Parser β) (p : Parser α) : Nat → Input → Option (Input × List α)
  | 0, _ => none
  | fuel + 1, i =>
    match sep i with
    | none => some (i, [])
    | some (i1, _) =>
      if i1.length = i.length then none
      else
        match p i1 with
        | none => some (i, [])
        | some (i2, o) =>
          match sepLoopF sep p fuel i2 with
          | none => none
          | some (r, os) => some (r, o :: os)

/-- nom `separated_list0`: a failing first element yields the empty list. -/
def psepList0 (sep : Parser β) (p : Parser α) : Parser (List α) := fun i =>
  match p i with
  | none => some (i, [])
  | some (i1, o) =>
    match sepLoopF sep p (i1.length + 1) i1 with
    | none => none
    | some (r, os) => some (r, o :: os)

/-- nom `separated_list1`: the first element is mandatory. -/
def psepList1 (sep : Parser β) (p : Parser α) : Parser (List α) := fun i =>
  match p i with
  | none => none
  | some (i1, o) =>
    match sepLoopF sep p (i1.length + 1) i1 with
    | none => none
    | some (r, os) => some (r, o :: os)

/-- Fueled model of nom `multi::many_till`, including its infinite-loop
check: at each step the terminator `g` is tried first; otherwise `p` must
succeed and consume input, else the whole loop errors out. -/
def manyTillF (p : Parser α) (g : Parser β) : Nat → Input → Option (Input × (List α × β))
  | 0, _ => none
  | fuel + 1, i =>
    match g i with
    | some (i1, e) => some (i1, ([], e))
    | none =>
      match p i with
      | none => none
      | some (i1, o) =>
        if i1.length = i.length then none
        else
          match manyTillF p g fuel i1 with
          | none => none
          | some (r, (os, e)) => some (r, (o :: os, e))

/-- The space, horizontal-tab and form-feed bytes of `one_of(" \t\u{c}")`. -/
def wschars : List Nat := [32, 9, 12]

/-- src/parser.rs `consume_whitespaces`. -/
def consume_whitespaces : Parser Unit := pvalue () (pmany0 (pOneOf wschars))

/-- src/parser.rs `consume_eol`: one of `"\r\n"`, `"\r"`, `"\n"`. -/
def consume_eol : Parser Unit :=
  pvalue () (pAlt (ptag [13, 10]) (pAlt (ptag [13]) (ptag [10])))

/-- src/parser.rs `consume_eol_or_eof`. -/
def consume_eol_or_eof : Parser Unit := pAlt (pvalue () pEof) consume_eol

/-- src/parser.rs `blank_line`. -/
def blank_line : Parser Unit := pbind consume_whitespaces fun _ => consume_eol_or_eof

/-- src/parser.rs `eol` byte predicate: carriage return or line feed. -/
def eol (c : Nat) : Bool := c == 13 || c == 10

/-- src/parser.rs `comment_line`. -/
def comment_line : Parser Unit :=
  pbind consume_whitespaces fun _ =>
  pbind (pOneOf [35, 33]) fun _ =>
  pbind (pTakeTill eol) fun _ =>
  consume_eol_or_eof

/-- src/parser.rs `consume_line`: a backslash, an EOL, then whitespace. -/
def consume_line : Parser Unit :=
  pbind (ptag [92]) fun _ =>
  pbind consume_eol fun _ =>
  consume_whitespaces

/-- src/parser.rs `consume_whitespaces_and_lines`. -/
def consume_whitespaces_and_lines : Parser Unit :=
  pvalue () (psepList0 (pmany1 consume_line) consume_whitespaces)

/-- src/parser.rs `char_in_key`: `none_of(":=\n\r \t\u{c}\\")`. -/
def char_in_key : Parser Nat := pNoneOf [58, 61, 10, 13, 32, 9, 12, 92]

/-- src/parser.rs `char_in_value`: `none_of("\n\r\\")`. -/
def char_in_value : Parser Nat := pNoneOf [10, 13, 92]

/-- src/parser.rs `escaped_char_to_char` (bytes as latin-1 code points). -/
def escaped_char_to_char (v : Nat) : Nat :=
  if v = 116 then 9
  else if v = 110 then 10
  else if v = 102 then 12
  else if v = 114 then 13
  else if v = 92 then 92
  else v

/-- src/parser.rs `escape_in_key_or_value`. -/
def escape_in_key_or_value : Parser Nat :=
  pbind (ptag [92]) fun _ =>
  pbind (pNoneOf [117, 13, 10]) fun c =>
  ppure (escaped_char_to_char c)

/-- src/parser.rs `one_char_in_key`. -/
def one_char_in_key : Parser Nat := pAlt escape_in_key_or_value char_in_key

/-- src/parser.rs `one_char_in_value`. -/
def one_char_in_value : Parser Nat := pAlt escape_in_key_or_value char_in_value

/-- src/parser.rs `consume_key`. -/
def consume_key : Parser Input :=
  pbind (psepList1 (pmany1 consume_line) (pmany1 one_char_in_key)) fun chunks =>
  ppure chunks.flatten

/-- src/parser.rs `consume_value`. -/
def consume_value : Parser Input :=
  pbind (psepList0 (pmany1 consume_line) (pmany0 one_char_in_value)) fun chunks =>
  ppure chunks.flatten

/-- src/parser.rs `Property`: a parsed key-value pair, byte-level strings. -/
structure Property where
  key : Input
  value : Input
  deriving DecidableEq

/-- src/parser.rs `kv_line`. -/
def kv_line : Parser Property :=
  pbind consume_whitespaces_and_lines fun _ =>
  pbind consume_key fun k =>
  pbind consume_whitespaces_and_lines fun _ =>
  pbind (pOpt (pOneOf [58, 61])) fun _ =>
  pbind consume_whitespaces_and_lines fun _ =>
  pbind consume_value fun v =>
  pbind consume_eol_or_eof fun _ =>
  ppure (Property.mk k v)

/-- The alternative tried at each driver iteration of `_fparser`:
`alt((value(None, comment_line), value(None, blank_line), opt(kv_line)))`. -/
def driver_step : Parser (Option Property) :=
  pAlt (pvalue none comment_line) (pAlt (pvalue none blank_line) (pOpt kv_line))

/-- src/parser.rs `_fparser` with the driver loop fuel left explicit. -/
def _fparserF (fuel : Nat) : Parser (List (Option Property) × Input) :=
  fun i => manyTillF driver_step pEof fuel i

/-- src/parser.rs `_fparser`: `many_till(alt(...), eof)`. -/
def _fparser : Parser (List (Option Property) × Input) :=
  fun i => _fparserF (i.length + 1) i

/-- src/parser.rs `parser`: run `_fparser` and flatten the `Option`s away. -/
def parser : Parser (List Property) := fun i =>
  match _fparser i with
  | none => none
  | some (r, (opts, _)) => some (r, opts.filterMap id)

/-- src/lib.rs `parse`: the public entry point, dropping the remaining
input on success; `none` models `Err(nom::Err<...>)`. -/
def parse (input : Input) : Option (List Property) :=
  match parser input with
  | none => none
  | some (_, v) => some v

/-- Model of `HashMap::insert` on an association list without duplicate
keys: overwrite the value of an existing key, append a fresh key. -/
def insertKV (m : List (Input × Input)) (k v : Input) : List (Input × Input) :=
  if m.any (fun kv => decide (kv.1 = k)) then
    m.map (fun kv => if kv.1 = k then (k, v) else kv)
  else m ++ [(k, v)]

/-- src/lib.rs `to_map`: insert every property in order. -/
def to_map (props : List Property) : List (Input × Input) :=
  props.foldl (fun m p => insertKV m p.key p.value) []

/-- Lookup in the association-list model of the `HashMap`. -/
def lookupKV (m : List (Input × Input)) (k : Input) : Option Input :=
  (m.find? (fun kv => decide (kv.1 = k))).map (fun kv => kv.2)

/-- A parser never returns more input than it was given.  Every rule of the
grammar satisfies this; it is what makes the loop fuels irrelevant past the
input length. -/
def Mono (p : Input → Option (Input × α)) : Prop :=
  ∀ i r v, p i = some (r, v) → r.length ≤ i.length

/-- The three end-of-line byte sequences recognized by `consume_eol`. -/
inductive IsEol : Input → Prop where
  | crlf : IsEol [13, 10]
  | cr : IsEol [13]
  | lf : IsEol [10]

/-- A run of horizontal whitespace bytes (space, tab, form feed). -/
def IsWsRun (ws : Input) : Prop := ∀ c ∈ ws, c ∈ wschars

/-- An input buffer consisting only of blank lines and comment lines, in
the sense of `blank_line` and `comment_line`: each line is horizontal
whitespace followed by an end of line (or the end of the buffer), or
whitespace, a `#` or `!` byte, a body free of carriage returns and line
feeds, and an end of line (or the end of the buffer). -/
inductive Skippable : Input → Prop where
  | nil : Skippable []
  | blank (ws e rest : Input) : IsWsRun ws → IsEol e → Skippable rest →
      Skippable (ws ++ e ++ rest)
  | blankEof (ws : Input) : IsWsRun ws → Skippable ws
  | comment (ws : Input) (c : Nat) (body e rest : Input) : IsWsRun ws →
      c ∈ [35, 33] → (∀ x ∈ body, eol x = false) → IsEol e → Skippable rest →
      Skippable (ws ++ c :: (body ++ e ++ rest))
  | commentEof (ws : Input) (c : Nat) (body : Input) : IsWsRun ws →
      c ∈ [35, 33] → (∀ x ∈ body, eol x = false) →
      Skippable (ws ++ c :: body)

/-- The bytes of the ASCII string `property`. -/
def propertyBytes : Input := [112, 114, 111, 112, 101, 114, 116, 121]

/-- The bytes of the ASCII string `test`. -/
def testBytes : Input := [116, 101, 115, 116]

/-- The bytes of the ASCII string `property2`. -/
def property2Bytes : Input := propertyBytes ++ [50]

/-- The bytes of the ASCII string `value`. -/
def valueBytes : Input := [118, 97, 108, 117, 101]

/-- The bytes of `"\nproperty=test\nproperty2=test\n"`. -/
def c3Input : Input :=
  [10] ++ propertyBytes ++ [61] ++ testBytes ++ [10]
    ++ property2Bytes ++ [61] ++ testBytes ++ [10]

/-- The bytes of `key\:with\:colons=value` (single backslashes). -/
def c7Input : Input :=
  [107, 101, 121, 92, 58, 119, 105, 116, 104, 92, 58,
   99, 111, 108, 111, 110, 115, 61] ++ valueBytes

/-- The bytes of the ASCII string `key:with:colons`. -/
def c7Key : Input :=
  [107, 101, 121, 58, 119, 105, 116, 104, 58, 99, 111, 108, 111, 110, 115]

/-- The bytes of `=test` followed by a line feed. -/
def c1Input : Input := [61] ++ testBytes ++ [10]

/-- The bytes of `key=value` followed by a single trailing backslash. -/
def c10Input : Input := [107, 101, 121, 61] ++ valueBytes ++ [92]

theorem mono_ppure (v : α) : Mono (ppure v) := by
  intro i r w h
  simp only [ppure, Option.some.injEq, Prod.mk.injEq] at h
  obtain ⟨rfl, -⟩ := h
  exact le_rfl

theorem mono_pbind {p : Parser α} {f : α → Parser β} (hp : Mono p)
    (hf : ∀ v, Mono (f v)) : Mono (pbind p f) := by
  intro i r w h
  simp only [pbind] at h
  cases hpi : p i with
  | none => simp only [hpi] at h; exact Option.noConfusion h
  | some rv =>
    obtain ⟨r1, v1⟩ := rv
    simp only [hpi] at h
    exact le_trans (hf v1 r1 r w h) (hp i r1 v1 hpi)

theorem mono_pAlt {p q : Parser α} (hp : Mono p) (hq : Mono q) :
    Mono (pAlt p q) := by
  intro i r w h
  simp only [pAlt] at h
  cases hpi : p i with
  | none => simp only [hpi] at h; exact hq i r w h
  | some rv =>
    obtain ⟨r1, v1⟩ := rv
    simp only [hpi, Option.some.injEq, Prod.mk.injEq] at h
    obtain ⟨rfl, -⟩ := h
    exact hp i r1 v1 hpi

theorem mono_pvalue {p : Parser α} (v : β) (hp : Mono p) : Mono (pvalue v p) :=
  mono_pbind hp (fun _ => mono_ppure v)

theorem mono_pOpt {p : Parser α} (hp : Mono p) : Mono (pOpt p) := by
  intro i r w h
  simp only [pOpt] at h
  cases hpi : p i with
  | none =>
    simp only [hpi, Option.some.injEq, Prod.mk.injEq] at h
    obtain ⟨rfl, -⟩ := h
    exact le_rfl
  | some rv =>
    obtain ⟨r1, v1⟩ := rv
    simp only [hpi, Option.some.injEq, Prod.mk.injEq] at h
    obtain ⟨rfl, -⟩ := h
    exact hp i r1 v1 hpi

theorem mono_ptag (t : Input) : Mono (ptag t) := by
  intro i r w h
  simp only [ptag] at h
  split at h
  · simp only [Option.some.injEq, Prod.mk.injEq] at h
    obtain ⟨rfl, -⟩ := h
    simp only [List.length_drop]
    omega
  · exact Option.noConfusion h

theorem mono_pOneOf (cs : List Nat) : Mono (pOneOf cs) := by
  intro i r w h
  cases i with
  | nil => exact Option.noConfusion h
  | cons c t =>
    simp only [pOneOf] at h
    split at h
    · simp only [Option.some.injEq, Prod.mk.injEq] at h
      obtain ⟨rfl, -⟩ := h
      simp only [List.length_cons]
      omega
    · exact Option.noConfusion h

theorem mono_pNoneOf (cs : List Nat) : Mono (pNoneOf cs) := by
  intro i r w h
  cases i with
  | nil => exact Option.noConfusion h
  | cons c t =>
    simp only [pNoneOf] at h
    split at h
    · exact Option.noConfusion h
    · simp only [Option.some.injEq, Prod.mk.injEq] at h
      obtain ⟨rfl, -⟩ := h
      simp only [List.length_cons]
      omega

theorem length_dropWhile_le (f : α → Bool) (l : List α) :
    (l.dropWhile f).length ≤ l.length := by
  induction l with
  | nil => simp
  | cons c t ih =>
    simp only [List.dropWhile_cons]
    split
    · simp only [List.length_cons]
      omega
    · exact le_rfl

theorem mono_pTakeTill (f : Nat → Bool) : Mono (pTakeTill f) := by
  intro i r w h
  simp only [pTakeTill, Option.some.injEq, Prod.mk.injEq] at h
  obtain ⟨rfl, -⟩ := h
  exact length_dropWhile_le _ i

theorem mono_pEof : Mono pEof := by
  intro i r w h
  cases i with
  | nil =>
    simp only [pEof, Option.some.injEq, Prod.mk.injEq] at h
    obtain ⟨rfl, -⟩ := h
    exact le_rfl
  | cons c t => exact Option.noConfusion h

theorem mono_many0F {p : Parser α} (hp : Mono p) :
    ∀ fuel, Mono (many0F p fuel) := by
  intro fuel
  induction fuel with
  | zero => intro i r w h; exact Option.noConfusion h
  | succ fuel ih =>
    intro i r w h
    simp only [many0F] at h
    cases hpi : p i with
    | none =>
      simp only [hpi, Option.some.injEq, Prod.mk.injEq] at h
      obtain ⟨rfl, -⟩ := h
      exact le_rfl
    | some rv =>
      obtain ⟨i1, o⟩ := rv
      simp only [hpi] at h
      split at h
      · exact Option.noConfusion h
      · cases hm : many0F p fuel i1 with
        | none => simp only [hm] at h; exact Option.noConfusion h
        | some rv2 =>
          obtain ⟨r2, os⟩ := rv2
          simp only [hm, Option.some.injEq, Prod.mk.injEq] at h
          obtain ⟨rfl, -⟩ := h
          exact le_trans (ih i1 r2 os hm) (hp i i1 o hpi)

theorem mono_pmany0 {p : Parser α} (hp : Mono p) : Mono (pmany0 p) := by
  intro i r w h
  exact mono_many0F hp (i.length + 1) i r w h

theorem mono_pmany1 {p : Parser α} (hp : Mono p) : Mono (pmany1 p) := by
  intro i r w h
  simp only [pmany1] at h
  cases hpi : p i with
  | none => simp only [hpi] at h; exact Option.noConfusion h
  | some rv =>
    obtain ⟨i1, o⟩ := rv
    simp only [hpi] at h
    cases hm : many0F p (i1.length + 1) i1 with
    | none => simp only [hm] at h; exact Option.noConfusion h
    | some rv2 =>
      obtain ⟨r2, os⟩ := rv2
      simp only [hm, Option.some.injEq, Prod.mk.injEq] at h
      obtain ⟨rfl, -⟩ := h
      exact le_trans (mono_many0F hp (i1.length + 1) i1 r2 os hm) (hp i i1 o hpi)

theorem mono_sepLoopF {sep : Parser β} {p : Parser α} (hsep : Mono sep)
    (hp : Mono p) : ∀ fuel, Mono (sepLoopF sep p fuel) := by
  intro fuel
  induction fuel with
  | zero => intro i r w h; exact Option.noConfusion h
  | succ fuel ih =>
    intro i r w h
    simp only [sepLoopF] at h
    cases hsi : sep i with
    | none =>
      simp only [hsi, Option.some.injEq, Prod.mk.injEq] at h
      obtain ⟨rfl, -⟩ := h
      exact le_rfl
    | some rv =>
      obtain ⟨i1, b⟩ := rv
      simp only [hsi] at h
      split at h
      · exact Option.noConfusion h
      · cases hpi : p i1 with
        | none =>
          simp only [hpi, Option.some.injEq, Prod.mk.injEq] at h
          obtain ⟨rfl, -⟩ := h
          exact le_rfl
        | some rv2 =>
          obtain ⟨i2, o⟩ := rv2
          simp only [hpi] at h
          cases hm : sepLoopF sep p fuel i2 with
          | none => simp only [hm] at h; exact Option.noConfusion h
          | some rv3 =>
            obtain ⟨r3, os⟩ := rv3
            simp only [hm, Option.some.injEq, Prod.mk.injEq] at h
            obtain ⟨rfl, -⟩ := h
            exact le_trans (le_trans (ih i2 r3 os hm) (hp i1 i2 o hpi))
              (hsep i i1 b hsi)

theorem mono_psepList0 {sep : Parser β} {p : Parser α} (hsep : Mono sep)
    (hp : Mono p) : Mono (psepList0 sep p) := by
  intro i r w h
  simp only [psepList0] at h
  cases hpi : p i with
  | none =>
    simp only [hpi, Option.some.injEq, Prod.mk.injEq] at h
    obtain ⟨rfl, -⟩ := h
    exact le_rfl
  | some rv =>
    obtain ⟨i1, o⟩ := rv
    simp only [hpi] at h
    cases hm : sepLoopF sep p (i1.length + 1) i1 with
    | none => simp only [hm] at h; exact Option.noConfusion h
    | some rv2 =>
      obtain ⟨r2, os⟩ := rv2
      simp only [hm, Option.some.injEq, Prod.mk.injEq] at h
      obtain ⟨rfl, -⟩ := h
      exact le_trans (mono_sepLoopF hsep hp (i1.length + 1) i1 r2 os hm)
        (hp i i1 o hpi)

theorem mono_psepList1 {sep : Parser β} {p : Parser α} (hsep : Mono sep)
    (hp : Mono p) : Mono (psepList1 sep p) := by
  intro i r w h
  simp only [psepList1] at h
  cases hpi : p i with
  | none => simp only [hpi] at h; exact Option.noConfusion h
  | some rv =>
    obtain ⟨i1, o⟩ := rv
    simp only [hpi] at h
    cases hm : sepLoopF sep p (i1.length + 1) i1 with
    | none => simp only [hm] at h; exact Option.noConfusion h
    | some rv2 =>
      obtain ⟨r2, os⟩ := rv2
      simp only [hm, Option.some.injEq, Prod.mk.injEq] at h
      obtain ⟨rfl, -⟩ := h
      exact le_trans (mono_sepLoopF hsep hp (i1.length + 1) i1 r2 os hm)
        (hp i i1 o hpi)

theorem mono_consume_whitespaces : Mono consume_whitespaces :=
  mono_pvalue () (mono_pmany0 (mono_pOneOf wschars))

theorem mono_consume_eol : Mono consume_eol :=
  mono_pvalue () (mono_pAlt (mono_ptag [13, 10])
    (mono_pAlt (mono_ptag [13]) (mono_ptag [10])))

theorem mono_consume_eol_or_eof : Mono consume_eol_or_eof :=
  mono_pAlt (mono_pvalue () mono_pEof) mono_consume_eol

theorem mono_blank_line : Mono blank_line :=
  mono_pbind mono_consume_whitespaces (fun _ => mono_consume_eol_or_eof)

theorem mono_comment_line : Mono comment_line :=
  mono_pbind mono_consume_whitespaces fun _ =>
  mono_pbind (mono_pOneOf [35, 33]) fun _ =>
  mono_pbind (mono_pTakeTill eol) fun _ =>
  mono_consume_eol_or_eof

theorem mono_consume_line : Mono consume_line :=
  mono_pbind (mono_ptag [92]) fun _ =>
  mono_pbind mono_consume_eol fun _ =>
  mono_consume_whitespaces

theorem mono_consume_whitespaces_and_lines : Mono consume_whitespaces_and_lines :=
  mono_pvalue () (mono_psepList0 (mono_pmany1 mono_consume_line)
    mono_consume_whitespaces)

theorem mono_escape_in_key_or_value : Mono escape_in_key_or_value :=
  mono_pbind (mono_ptag [92]) fun _ =>
  mono_pbind (mono_pNoneOf [117, 13, 10]) fun c =>
  mono_ppure (escaped_char_to_char c)

theorem mono_one_char_in_key : Mono one_char_in_key :=
  mono_pAlt mono_escape_in_key_or_value (mono_pNoneOf _)

theorem mono_one_char_in_value : Mono one_char_in_value :=
  mono_pAlt mono_escape_in_key_or_value (mono_pNoneOf _)

theorem mono_consume_key : Mono consume_key :=
  mono_pbind (mono_psepList1 (mono_pmany1 mono_consume_line)
    (mono_pmany1 mono_one_char_in_key)) fun chunks => mono_ppure chunks.flatten

theorem mono_consume_value : Mono consume_value :=
  mono_pbind (mono_psepList0 (mono_pmany1 mono_consume_line)
    (mono_pmany0 mono_one_char_in_value)) fun chunks => mono_ppure chunks.flatten

theorem mono_kv_line : Mono kv_line :=
  mono_pbind mono_consume_whitespaces_and_lines fun _ =>
  mono_pbind mono_consume_key fun k =>
  mono_pbind mono_consume_whitespaces_and_lines fun _ =>
  mono_pbind (mono_pOpt (mono_pOneOf [58, 61])) fun _ =>
  mono_pbind mono_consume_whitespaces_and_lines fun _ =>
  mono_pbind mono_consume_value fun v =>
  mono_pbind mono_consume_eol_or_eof fun _ =>
  mono_ppure (Property.mk k v)

theorem mono_driver_step : Mono driver_step :=
  mono_pAlt (mono_pvalue none mono_comment_line)
    (mono_pAlt (mono_pvalue none mono_blank_line) (mono_pOpt mono_kv_line))

theorem manyTillF_stable {p : Parser α} {g : Parser β} (hp : Mono p) :
    ∀ (n : Nat) (i : Input) (fuel1 fuel2 : Nat), i.length ≤ n →
      i.length < fuel1 → i.length < fuel2 →
      manyTillF p g fuel1 i = manyTillF p g fuel2 i := by
  intro n
  induction n with
  | zero =>
    intro i fuel1 fuel2 hn h1 h2
    obtain ⟨k1, rfl⟩ : ∃ k, fuel1 = k + 1 := ⟨fuel1 - 1, by omega⟩
    obtain ⟨k2, rfl⟩ : ∃ k, fuel2 = k + 1 := ⟨fuel2 - 1, by omega⟩
    have hi : i = [] := List.eq_nil_of_length_eq_zero (by omega)
    subst hi
    simp only [manyTillF]
    cases hg : g [] with
    | some rv => rfl
    | none =>
      cases hpi : p [] with
      | none => rfl
      | some rv =>
        obtain ⟨i1, o⟩ := rv
        have h0 : i1.length = ([] : Input).length :=
          Nat.le_zero.mp (hp [] i1 o hpi) |>.trans rfl
        simp [h0]
  | succ n ih =>
    intro i fuel1 fuel2 hn h1 h2
    obtain ⟨k1, rfl⟩ : ∃ k, fuel1 = k + 1 := ⟨fuel1 - 1, by omega⟩
    obtain ⟨k2, rfl⟩ : ∃ k, fuel2 = k + 1 := ⟨fuel2 - 1, by omega⟩
    simp only [manyTillF]
    cases hg : g i with
    | some rv => rfl
    | none =>
      cases hpi : p i with
      | none => rfl
      | some rv =>
        obtain ⟨i1, o⟩ := rv
        by_cases hlen : i1.length = i.length
        · simp [hlen]
        · have hlt : i1.length < i.length :=
            lt_of_le_of_ne (hp i i1 o hpi) hlen
          dsimp only
          rw [if_neg hlen, if_neg hlen, ih i1 k1 k2 (by omega) (by omega) (by omega)]

/-- Successful runs of `many_till(..., eof)` end exactly at end of input. -/
theorem manyTillF_pEof_rest {p : Parser α} :
    ∀ (fuel : Nat) (i r : Input) (v : List α × Input),
      manyTillF p pEof fuel i = some (r, v) → r = [] := by
  intro fuel
  induction fuel with
  | zero => intro i r v h; exact Option.noConfusion h
  | succ fuel ih =>
    intro i r v h
    simp only [manyTillF] at h
    cases i with
    | nil =>
      simp only [pEof, Option.some.injEq, Prod.mk.injEq] at h
      exact h.1.symm
    | cons c t =>
      simp only [pEof] at h
      cases hpi : p (c :: t) with
      | none => simp only [hpi] at h; exact Option.noConfusion h
      | some rv =>
        obtain ⟨i1, o⟩ := rv
        simp only [hpi] at h
        split at h
        · exact Option.noConfusion h
        · cases hm : manyTillF p pEof fuel i1 with
          | none => simp only [hm] at h; exact Option.noConfusion h
          | some rv2 =>
            obtain ⟨r2, os, e⟩ := rv2
            simp only [hm, Option.some.injEq, Prod.mk.injEq] at h
            obtain ⟨hr, -⟩ := h
            exact hr ▸ ih i1 r2 (os, e) hm

/-- Unrolling of the `_fparser` driver by one successful discarded line:
if the three-way alternative consumes a nonempty prefix of the input and
produces no entry, `_fparser` continues on the remaining input. -/
theorem fparser_cons (i i1 : Input) (hne : i ≠ [])
    (hstep : driver_step i = some (i1, none)) (hlt : i1.length < i.length) :
    _fparser i =
      (_fparser i1).map (fun rv => (rv.1, (none :: rv.2.1, rv.2.2))) := by
  show manyTillF driver_step pEof (i.length + 1) i = _
  have hg : pEof i = none := by
    cases i with
    | nil => exact absurd rfl hne
    | cons c t => rfl
  simp only [manyTillF, hg, hstep]
  rw [if_neg (by omega)]
  rw [manyTillF_stable mono_driver_step i1.length i1 i.length (i1.length + 1)
    le_rfl (by omega) (by omega)]
  simp only [_fparser, _fparserF]
  cases hm : manyTillF driver_step pEof (i1.length + 1) i1 with
  | none => rfl
  | some rv =>
    obtain ⟨r, os, e⟩ := rv
    rfl

theorem ptag_prefix (t r : Input) : ptag t (t ++ r) = some (r, ()) := by
  simp [ptag, List.isPrefixOf_iff_prefix, List.prefix_append, List.drop_left]

theorem ptag_cons_ne {a b : Nat} (t i : Input) (h : a ≠ b) :
    ptag (a :: t) (b :: i) = none := by
  simp [ptag, List.isPrefixOf_cons₂, h]

theorem ptag_nil : ∀ (a : Nat) (t : Input), ptag (a :: t) [] = none := by
  intro a t
  simp [ptag]

theorem dropWhile_run (f : Nat → Bool) (w r : Input) (hw : ∀ c ∈ w, f c = true)
    (hr : ∀ c, r.head? = some c → f c = false) :
    (w ++ r).dropWhile f = r := by
  induction w with
  | nil =>
    cases r with
    | nil => rfl
    | cons c t =>
      simp [List.dropWhile_cons, hr c rfl]
  | cons a w ih =>
    simp only [List.cons_append, List.dropWhile_cons,
      hw a (List.mem_cons_self a w)]
    exact ih (fun c hc => hw c (List.mem_cons_of_mem a hc))

theorem takeWhile_run (f : Nat → Bool) (w r : Input) (hw : ∀ c ∈ w, f c = true)
    (hr : ∀ c, r.head? = some c → f c = false) :
    (w ++ r).takeWhile f = w := by
  induction w with
  | nil =>
    cases r with
    | nil => rfl
    | cons c t =>
      simp [List.takeWhile_cons, hr c rfl]
  | cons a w ih =>
    simp only [List.cons_append, List.takeWhile_cons,
      hw a (List.mem_cons_self a w)]
    exact congrArg (a :: ·) (ih (fun c hc => hw c (List.mem_cons_of_mem a hc)))

theorem many0F_oneOf_eval (cs : List Nat) :
    ∀ (i : Input) (fuel : Nat), i.length < fuel →
      many0F (pOneOf cs) fuel i =
        some (i.dropWhile (fun c => decide (c ∈ cs)),
          i.takeWhile (fun c => decide (c ∈ cs))) := by
  intro i
  induction i with
  | nil =>
    intro fuel h
    obtain ⟨k, rfl⟩ : ∃ k, fuel = k + 1 := ⟨fuel - 1, by omega⟩
    rfl
  | cons c t ih =>
    intro fuel h
    obtain ⟨k, rfl⟩ : ∃ k, fuel = k + 1 := ⟨fuel - 1, by omega⟩
    simp only [many0F, pOneOf]
    by_cases hc : c ∈ cs
    · rw [if_pos hc]
      dsimp only
      rw [if_neg (by simp only [List.length_cons]; omega)]
      rw [ih k (by simp only [List.length_cons] at h; omega)]
      simp [List.dropWhile_cons, List.takeWhile_cons, hc]
    · rw [if_neg hc]
      dsimp only
      simp [List.dropWhile_cons, List.takeWhile_cons, hc]

theorem consume_whitespaces_eval (i : Input) :
    consume_whitespaces i =
      some (i.dropWhile (fun c => decide (c ∈ wschars)), ()) := by
  show pbind (pmany0 (pOneOf wschars)) _ i = _
  simp only [pbind, pmany0]
  rw [many0F_oneOf_eval wschars i (i.length + 1) (by omega)]
  rfl

theorem consume_whitespaces_run (w r : Input) (hw : IsWsRun w)
    (hr : ∀ c, r.head? = some c → c ∉ wschars) :
    consume_whitespaces (w ++ r) = some (r, ()) := by
  rw [consume_whitespaces_eval]
  rw [dropWhile_run _ w r (fun c hc => by simp [hw c hc])
    (fun c hc => by simp [hr c hc])]

theorem skippable_cons_lf {r : Input} (h : Skippable (10 :: r)) :
    Skippable r := by
  generalize hs : (10 : Nat) :: r = s at h
  induction h with
  | nil => exact absurd hs (by simp)
  | blank ws e rest hws he hrest ih =>
    cases ws with
    | nil =>
      cases he with
      | crlf => simp at hs
      | cr => simp at hs
      | lf =>
        simp only [List.nil_append, List.cons_append, List.nil_append,
          List.cons.injEq] at hs
        exact hs.2 ▸ hrest
    | cons w tw =>
      have hmem := hws w (List.mem_cons_self w tw)
      simp only [List.cons_append, List.cons.injEq] at hs
      rw [← hs.1] at hmem
      simp [wschars] at hmem
  | blankEof ws hws =>
    cases ws with
    | nil => exact absurd hs (by simp)
    | cons w tw =>
      have hmem := hws w (List.mem_cons_self w tw)
      simp only [List.cons.injEq] at hs
      rw [← hs.1] at hmem
      simp [wschars] at hmem
  | comment ws c body e rest hws hc hb he hrest ih =>
    cases ws with
    | nil =>
      simp only [List.nil_append, List.cons.injEq] at hs
      rw [← hs.1] at hc
      simp at hc
    | cons w tw =>
      have hmem := hws w (List.mem_cons_self w tw)
      simp only [List.cons_append, List.cons.injEq] at hs
      rw [← hs.1] at hmem
      simp [wschars] at hmem
  | commentEof ws c body hws hc hb =>
    cases ws with
    | nil =>
      simp only [List.nil_append, List.cons.injEq] at hs
      rw [← hs.1] at hc
      simp at hc
    | cons w tw =>
      have hmem := hws w (List.mem_cons_self w tw)
      simp only [List.cons_append, List.cons.injEq] at hs
      rw [← hs.1] at hmem
      simp [wschars] at hmem

theorem consume_eol_chunk (e rest : Input) (he : IsEol e) :
    ∃ r2, consume_eol (e ++ rest) = some (r2, ()) ∧
      r2.length ≤ rest.length ∧ (Skippable rest → Skippable r2) := by
  cases he with
  | crlf =>
    refine ⟨rest, ?_, le_rfl, fun h => h⟩
    have h1 : ptag [13, 10] (13 :: 10 :: rest) = some (rest, ()) :=
      ptag_prefix [13, 10] rest
    simp [consume_eol, pvalue, pbind, pAlt, ppure, h1]
  | lf =>
    refine ⟨rest, ?_, le_rfl, fun h => h⟩
    have h1 : ptag [13, 10] (10 :: rest) = none := ptag_cons_ne _ _ (by omega)
    have h2 : ptag [13] (10 :: rest) = none := ptag_cons_ne _ _ (by omega)
    have h3 : ptag [10] (10 :: rest) = some (rest, ()) := ptag_prefix [10] rest
    simp [consume_eol, pvalue, pbind, pAlt, ppure, h1, h2, h3]
  | cr =>
    cases rest with
    | nil =>
      refine ⟨[], ?_, le_rfl, fun h => h⟩
      have h1 : ptag [13, 10] [13] = none := by
        simp [ptag, List.isPrefixOf_cons₂, List.isPrefixOf]
      have h2 : ptag [13] [13] = some ([], ()) := ptag_prefix [13] []
      simp [consume_eol, pvalue, pbind, pAlt, ppure, h1, h2]
    | cons c t =>
      by_cases hc : c = 10
      · subst hc
        refine ⟨t, ?_, by simp, fun h => skippable_cons_lf h⟩
        have h1 : ptag [13, 10] (13 :: 10 :: t) = some (t, ()) :=
          ptag_prefix [13, 10] t
        simp [consume_eol, pvalue, pbind, pAlt, ppure, h1]
      · refine ⟨c :: t, ?_, le_rfl, fun h => h⟩
        have hcc : ((10 : Nat) == c) = false := by
          simp [beq_iff_eq]
          omega
        have h0 : ([10] : Input).isPrefixOf (c :: t) = false := by
          simp [List.isPrefixOf_cons₂, hcc]
        have h1 : ptag [13, 10] (13 :: c :: t) = none := by
          simp [ptag, List.isPrefixOf_cons₂, h0]
        have h2 : ptag [13] (13 :: c :: t) = some (c :: t, ()) :=
          ptag_prefix [13] (c :: t)
        simp [consume_eol, pvalue, pbind, pAlt, ppure, h1, h2]

theorem consume_eol_or_eof_chunk (e rest : Input) (he : IsEol e) :
    ∃ r2, consume_eol_or_eof (e ++ rest) = some (r2, ()) ∧
      r2.length ≤ rest.length ∧ (Skippable rest → Skippable r2) := by
  obtain ⟨r2, h1, h2, h3⟩ := consume_eol_chunk e rest he
  refine ⟨r2, ?_, h2, h3⟩
  have hne : pEof (e ++ rest) = none := by cases he <;> rfl
  simp [consume_eol_or_eof, pAlt, pvalue, pbind, ppure, hne, h1]

theorem eol_head_not_ws (e rest : Input) (he : IsEol e) :
    ∀ c, (e ++ rest).head? = some c → c ∉ wschars := by
  intro c h
  cases he with
  | crlf =>
    simp only [List.cons_append, List.head?_cons, Option.some.injEq] at h
    rw [← h]
    simp [wschars]
  | cr =>
    simp only [List.cons_append, List.head?_cons, Option.some.injEq] at h
    rw [← h]
    simp [wschars]
  | lf =>
    simp only [List.cons_append, List.head?_cons, Option.some.injEq] at h
    rw [← h]
    simp [wschars]

theorem eol_head_stops_till (e rest : Input) (he : IsEol e) :
    ∀ x, (e ++ rest).head? = some x → (!(eol x)) = false := by
  intro x h
  cases he with
  | crlf =>
    simp only [List.cons_append, List.head?_cons, Option.some.injEq] at h
    rw [← h]
    rfl
  | cr =>
    simp only [List.cons_append, List.head?_cons, Option.some.injEq] at h
    rw [← h]
    rfl
  | lf =>
    simp only [List.cons_append, List.head?_cons, Option.some.injEq] at h
    rw [← h]
    rfl

theorem step_skip_blank (ws e rest : Input) (hws : IsWsRun ws) (he : IsEol e) :
    ∃ i1, driver_step (ws ++ e ++ rest) = some (i1, none) ∧
      i1.length ≤ rest.length ∧ (Skippable rest → Skippable i1) := by
  obtain ⟨r2, hceol, hlen, hskip⟩ := consume_eol_or_eof_chunk e rest he
  have hw : consume_whitespaces (ws ++ (e ++ rest)) = some (e ++ rest, ()) :=
    consume_whitespaces_run ws (e ++ rest) hws (eol_head_not_ws e rest he)
  have hone : pOneOf [35, 33] (e ++ rest) = none := by
    cases he <;> simp [pOneOf]
  have hcomment : comment_line (ws ++ (e ++ rest)) = none := by
    simp [comment_line, pbind, hw, hone]
  have hblank : blank_line (ws ++ (e ++ rest)) = some (r2, ()) := by
    simp [blank_line, pbind, hw, hceol]
  refine ⟨r2, ?_, hlen, hskip⟩
  simp [driver_step, pAlt, pvalue, pbind, ppure, hcomment, hblank]

theorem step_skip_comment (ws : Input) (c : Nat) (body e rest : Input)
    (hws : IsWsRun ws) (hc : c ∈ [35, 33]) (hb : ∀ x ∈ body, eol x = false)
    (he : IsEol e) :
    ∃ i1, driver_step (ws ++ c :: (body ++ e ++ rest)) = some (i1, none) ∧
      i1.length ≤ rest.length ∧ (Skippable rest → Skippable i1) := by
  obtain ⟨r2, hceol, hlen, hskip⟩ := consume_eol_or_eof_chunk e rest he
  have hc2 : c = 35 ∨ c = 33 := by simpa using hc
  have hcw : c ∉ wschars := by
    simp only [wschars, List.mem_cons, List.not_mem_nil, or_false]
    omega
  have hw : consume_whitespaces (ws ++ c :: (body ++ (e ++ rest))) =
      some (c :: (body ++ (e ++ rest)), ()) :=
    consume_whitespaces_run ws _ hws (fun x hx => by
      simp only [List.head?_cons, Option.some.injEq] at hx
      exact hx ▸ hcw)
  have hone : pOneOf [35, 33] (c :: (body ++ (e ++ rest))) =
      some (body ++ (e ++ rest), c) := by
    simp [pOneOf, hc]
  have hdrop := dropWhile_run (fun x => !(eol x)) body (e ++ rest)
    (fun x hx => by simp [hb x hx]) (eol_head_stops_till e rest he)
  have htake := takeWhile_run (fun x => !(eol x)) body (e ++ rest)
    (fun x hx => by simp [hb x hx]) (eol_head_stops_till e rest he)
  have htill : pTakeTill eol (body ++ (e ++ rest)) = some (e ++ rest, body) := by
    simp only [pTakeTill]
    rw [hdrop, htake]
  have hcomment : comment_line (ws ++ c :: (body ++ (e ++ rest))) =
      some (r2, ()) := by
    simp [comment_line, pbind, hw, hone, htill, hceol]
  refine ⟨r2, ?_, hlen, hskip⟩
  simp [driver_step, pAlt, pvalue, pbind, ppure, hcomment]

theorem step_skip_blankEof (ws : Input) (hws : IsWsRun ws) :
    driver_step ws = some ([], none) := by
  have hw : consume_whitespaces ws = some ([], ()) := by
    have := consume_whitespaces_run ws [] hws (fun c hc => by simp at hc)
    simpa using this
  have hone : pOneOf [35, 33] ([] : Input) = none := rfl
  have heoe : consume_eol_or_eof ([] : Input) = some ([], ()) := rfl
  have hcomment : comment_line ws = none := by
    simp [comment_line, pbind, hw, hone]
  have hblank : blank_line ws = some ([], ()) := by
    simp [blank_line, pbind, hw, heoe]
  simp [driver_step, pAlt, pvalue, pbind, ppure, hcomment, hblank]

theorem step_skip_commentEof (ws : Input) (c : Nat) (body : Input)
    (hws : IsWsRun ws) (hc : c ∈ [35, 33]) (hb : ∀ x ∈ body, eol x = false) :
    driver_step (ws ++ c :: body) = some ([], none) := by
  have hc2 : c = 35 ∨ c = 33 := by simpa using hc
  have hcw : c ∉ wschars := by
    simp only [wschars, List.mem_cons, List.not_mem_nil, or_false]
    omega
  have hw : consume_whitespaces (ws ++ c :: body) = some (c :: body, ()) :=
    consume_whitespaces_run ws _ hws (fun x hx => by
      simp only [List.head?_cons, Option.some.injEq] at hx
      exact hx ▸ hcw)
  have hone : pOneOf [35, 33] (c :: body) = some (body, c) := by
    simp [pOneOf, hc]
  have hdrop := dropWhile_run (fun x => !(eol x)) body []
    (fun x hx => by simp [hb x hx]) (fun x hx => by simp at hx)
  have htake := takeWhile_run (fun x => !(eol x)) body []
    (fun x hx => by simp [hb x hx]) (fun x hx => by simp at hx)
  simp only [List.append_nil] at hdrop htake
  have htill : pTakeTill eol body = some ([], body) := by
    simp only [pTakeTill]
    rw [hdrop, htake]
  have heoe : consume_eol_or_eof ([] : Input) = some ([], ()) := rfl
  have hcomment : comment_line (ws ++ c :: body) = some ([], ()) := by
    simp [comment_line, pbind, hw, hone, htill, heoe]
  simp [driver_step, pAlt, pvalue, pbind, ppure, hcomment]

theorem skippable_fparser : ∀ (n : Nat) (i : Input), i.length ≤ n →
    Skippable i → ∃ os, _fparser i = some ([], (os, [])) ∧ ∀ o ∈ os, o = none := by
  intro n
  induction n with
  | zero =>
    intro i hlen hsk
    have hi : i = [] := List.eq_nil_of_length_eq_zero (by omega)
    subst hi
    exact ⟨[], rfl, by simp⟩
  | succ n ih =>
    intro i hlen hsk
    cases hsk with
    | nil => exact ⟨[], rfl, by simp⟩
    | blank ws e rest hws he hrest =>
      obtain ⟨i1, hstep, hle, hskip⟩ := step_skip_blank ws e rest hws he
      have he1 : 1 ≤ e.length := by cases he <;> simp
      have hlena : (ws ++ e ++ rest).length = ws.length + e.length + rest.length := by
        simp [List.length_append]
        omega
      have hlt : i1.length < (ws ++ e ++ rest).length := by omega
      have hne : ws ++ e ++ rest ≠ [] := by
        intro hempty
        rw [hempty] at hlena
        simp at hlena
        omega
      obtain ⟨os, hfp, hos⟩ := ih i1 (by omega) (hskip hrest)
      refine ⟨none :: os, ?_, ?_⟩
      · rw [fparser_cons _ i1 hne hstep hlt, hfp]
        rfl
      · intro o ho
        rcases List.mem_cons.mp ho with rfl | hmem
        · rfl
        · exact hos o hmem
    | blankEof w hws =>
      by_cases hws0 : i = []
      · subst hws0
        exact ⟨[], rfl, by simp⟩
      · have hstep := step_skip_blankEof i hws
        have hlt : ([] : Input).length < i.length := by
          cases i with
          | nil => exact absurd rfl hws0
          | cons a t => simp
        refine ⟨[none], ?_, by simp⟩
        rw [fparser_cons i [] hws0 hstep hlt]
        rfl
    | comment ws c body e rest hws hc hb he hrest =>
      obtain ⟨i1, hstep, hle, hskip⟩ := step_skip_comment ws c body e rest hws hc hb he
      have he1 : 1 ≤ e.length := by cases he <;> simp
      have hlena : (ws ++ c :: (body ++ e ++ rest)).length =
          ws.length + 1 + body.length + e.length + rest.length := by
        simp [List.length_append, List.length_cons]
        omega
      have hlt : i1.length < (ws ++ c :: (body ++ e ++ rest)).length := by omega
      have hne : ws ++ c :: (body ++ e ++ rest) ≠ [] := by simp
      obtain ⟨os, hfp, hos⟩ := ih i1 (by omega) (hskip hrest)
      refine ⟨none :: os, ?_, ?_⟩
      · rw [fparser_cons _ i1 hne hstep hlt, hfp]
        rfl
      · intro o ho
        rcases List.mem_cons.mp ho with rfl | hmem
        · rfl
        · exact hos o hmem
    | commentEof ws c body hws hc hb =>
      have hstep := step_skip_commentEof ws c body hws hc hb
      have hne : ws ++ c :: body ≠ [] := by simp
      have hlt : ([] : Input).length < (ws ++ c :: body).length := by simp
      refine ⟨[none], ?_, by simp⟩
      rw [fparser_cons _ [] hne hstep hlt]
      rfl

theorem to_map_append (l : List Property) (p : Property) :
    to_map (l ++ [p]) = insertKV (to_map l) p.key p.value := by
  simp [to_map, List.foldl_append]

theorem find?_replace_self (m : List (Input × Input)) (k v : Input)
    (hany : m.any (fun kv => decide (kv.1 = k)) = true) :
    (m.map (fun kv => if kv.1 = k then (k, v) else kv)).find?
      (fun kv => decide (kv.1 = k)) = some (k, v) := by
  induction m with
  | nil => simp at hany
  | cons a t ih =>
    by_cases hak : a.1 = k
    · simp only [List.map_cons, if_pos hak]
      apply List.find?_cons_of_pos
      simp
    · simp only [List.map_cons, if_neg hak]
      rw [List.find?_cons_of_neg _ (by simp [hak])]
      apply ih
      simp only [List.any_cons, Bool.or_eq_true, decide_eq_true_eq] at hany
      rcases hany with h | h
      · exact absurd h hak
      · exact h

theorem find?_replace_other (m : List (Input × Input)) (k v k0 : Input)
    (hne : ¬ k0 = k) :
    (m.map (fun kv => if kv.1 = k then (k, v) else kv)).find?
      (fun kv => decide (kv.1 = k0)) = m.find? (fun kv => decide (kv.1 = k0)) := by
  induction m with
  | nil => rfl
  | cons a t ih =>
    by_cases hak : a.1 = k
    · simp only [List.map_cons, if_pos hak]
      rw [List.find?_cons_of_neg _ (by
          simp only [decide_eq_true_eq]
          intro hh
          exact hne hh.symm),
        List.find?_cons_of_neg _ (by
          simp only [decide_eq_true_eq, hak]
          intro hh
          exact hne hh.symm), ih]
    · simp only [List.map_cons, if_neg hak]
      by_cases ha0 : a.1 = k0
      · rw [List.find?_cons_of_pos _ (by simp [ha0]),
          List.find?_cons_of_pos _ (by simp [ha0])]
      · rw [List.find?_cons_of_neg _ (by simp [ha0]),
          List.find?_cons_of_neg _ (by simp [ha0]), ih]

theorem lookup_insertKV (m : List (Input × Input)) (k v k0 : Input) :
    lookupKV (insertKV m k v) k0 = if k0 = k then some v else lookupKV m k0 := by
  simp only [insertKV, lookupKV]
  by_cases hany : m.any (fun kv => decide (kv.1 = k)) = true
  · rw [if_pos hany]
    by_cases hk : k0 = k
    · subst hk
      rw [find?_replace_self m k0 v hany, if_pos rfl]
      rfl
    · rw [find?_replace_other m k v k0 hk, if_neg hk]
  · rw [if_neg hany]
    rw [List.find?_append]
    by_cases hk : k0 = k
    · subst hk
      have hnone : m.find? (fun kv => decide (kv.1 = k0)) = none := by
        rw [List.find?_eq_none]
        intro x hx
        simp only [decide_eq_true_eq]
        intro hh
        exact hany (List.any_eq_true.mpr ⟨x, hx, by simp [hh]⟩)
      rw [hnone, if_pos rfl]
      rw [List.find?_cons_of_pos _ (by simp)]
      rfl
    · have h1 : ([(k, v)] : List (Input × Input)).find?
          (fun kv => decide (kv.1 = k0)) = none := by
        rw [List.find?_cons_of_neg _ (by
          simp only [decide_eq_true_eq]
          intro hh
          exact hk hh.symm)]
        rfl
      rw [h1, if_neg hk]
      cases m.find? (fun kv => decide (kv.1 = k0)) with
      | none => rfl
      | some a => rfl

theorem lookup_to_map (props : List Property) (k : Input) :
    lookupKV (to_map props) k =
      (props.reverse.find? (fun p => decide (p.key = k))).map Property.value := by
  induction props using List.reverseRecOn with
  | nil => rfl
  | append_singleton l p ih =>
    rw [to_map_append, lookup_insertKV, List.reverse_append]
    simp only [List.reverse_cons, List.reverse_nil, List.nil_append,
      List.singleton_append]
    by_cases hpk : p.key = k
    · rw [if_pos (by rw [hpk]), List.find?_cons_of_pos _ (by simp [hpk])]
      rfl
    · rw [if_neg (by intro hh; exact hpk hh.symm),
        List.find?_cons_of_neg _ (by simp [hpk]), ih]

theorem map_fst_replace (m : List (Input × Input)) (k v : Input) :
    (m.map (fun kv => if kv.1 = k then (k, v) else kv)).map Prod.fst =
      m.map Prod.fst := by
  induction m with
  | nil => rfl
  | cons a t ih =>
    by_cases hak : a.1 = k
    · simp [hak, ih]
    · simp [hak, ih]

theorem keys_to_map (props : List Property) :
    ((to_map props).map Prod.fst).Nodup ∧
      ∀ k, k ∈ (to_map props).map Prod.fst ↔ k ∈ props.map Property.key := by
  induction props using List.reverseRecOn with
  | nil => simp [to_map]
  | append_singleton l p ih =>
    obtain ⟨hnd, hmem⟩ := ih
    rw [to_map_append]
    simp only [insertKV]
    by_cases hany : (to_map l).any (fun kv => decide (kv.1 = p.key)) = true
    · rw [if_pos hany, map_fst_replace]
      refine ⟨hnd, fun k => ?_⟩
      rw [hmem k]
      simp only [List.map_append, List.map_cons, List.map_nil, List.mem_append,
        List.mem_cons, List.not_mem_nil, or_false]
      constructor
      · exact Or.inl
      · rintro (h | rfl)
        · exact h
        · obtain ⟨x, hx, hxk⟩ := List.any_eq_true.mp hany
          simp only [decide_eq_true_eq] at hxk
          have : x.1 ∈ (to_map l).map Prod.fst := List.mem_map_of_mem Prod.fst hx
          rw [hxk] at this
          exact (hmem p.key).mp this
    · rw [if_neg hany, List.map_append]
      have hout : p.key ∉ (to_map l).map Prod.fst := by
        intro hmem2
        obtain ⟨x, hx, hxk⟩ := List.mem_map.mp hmem2
        exact hany (List.any_eq_true.mpr ⟨x, hx, by simp [hxk]⟩)
      constructor
      · simp only [List.map_cons, List.map_nil]
        rw [List.nodup_append]
        exact ⟨hnd, List.nodup_singleton p.key, by
          intro a ha hb
          simp only [List.mem_singleton] at hb
          rw [hb] at ha
          exact hout ha⟩
      · intro k
        simp only [List.map_append, List.map_cons, List.map_nil,
          List.mem_append, List.mem_cons, List.not_mem_nil, or_false, hmem k]

theorem to_map_length (props : List Property) :
    (to_map props).length = (props.map Property.key).dedup.length := by
  obtain ⟨hnd, hmem⟩ := keys_to_map props
  have h1 : (to_map props).length = ((to_map props).map Prod.fst).length := by
    simp
  rw [h1, ← List.toFinset_card_of_nodup hnd, ← List.card_toFinset]
  congr 1
  apply Finset.ext
  intro a
  simp only [List.mem_toFinset]
  exact hmem a

/-- C1: applying `parse` to the bytes of `=test` followed by a line feed (a
line beginning with a bare separator and no key) returns a parse error
(`none`, the model of `Err(...)`); no entry sequence is returned — in
particular no entry with an empty key — and the line is not skipped. -/
theorem C1_bare_separator_parse_error : parse c1Input = none := by decide

/-- C2: for every finite input buffer the driver terminates after a number
of iterations bounded by the input length: every fuel at least one more
than the input length gives the `_fparser` driver the same result as the
canonical one, and `parse` yields either an entry sequence or an error. -/
theorem C2_parse_terminates (i : Input) (fuel : Nat) (h : i.length + 1 ≤ fuel) :
    _fparserF fuel i = _fparser i ∧
      ((∃ v, parse i = some v) ∨ parse i = none) := by
  constructor
  · exact manyTillF_stable mono_driver_step i.length i fuel (i.length + 1)
      le_rfl (by omega) (by omega)
  · cases hp : parse i with
    | none => exact Or.inr rfl
    | some v => exact Or.inl ⟨v, rfl⟩

theorem C2_witness :
    c1Input.length + 1 ≤ 100 ∧ (_fparserF 100 c1Input = _fparser c1Input ∧
      ((∃ v, parse c1Input = some v) ∨ parse c1Input = none)) :=
  ⟨by decide, C2_parse_terminates c1Input 100 (by decide)⟩

/-- C3: `parse` on the bytes of `"\nproperty=test\nproperty2=test\n"`
returns exactly the entries `(property, test)` and `(property2, test)` in
input order, and `to_map` of that result is a two-entry mapping sending
`property` to `test` and `property2` to `test`. -/
theorem C3_concrete_scenario :
    parse c3Input = some [⟨propertyBytes, testBytes⟩, ⟨property2Bytes, testBytes⟩]
    ∧ lookupKV (to_map [⟨propertyBytes, testBytes⟩, ⟨property2Bytes, testBytes⟩])
        propertyBytes = some testBytes
    ∧ lookupKV (to_map [⟨propertyBytes, testBytes⟩, ⟨property2Bytes, testBytes⟩])
        property2Bytes = some testBytes
    ∧ (to_map [⟨propertyBytes, testBytes⟩, ⟨property2Bytes, testBytes⟩]).length = 2 := by
  decide

/-- C4: `to_map` is the left-to-right insert/overwrite fold: every key
looks up to the value of its last occurrence in the sequence (and to
nothing when it never occurs), and the size of the mapping is the number
of distinct keys.  `to_map` is a total function, so it never fails. -/
theorem C4_to_map_fold (props : List Property) :
    (∀ k, lookupKV (to_map props) k =
      (props.reverse.find? (fun p => decide (p.key = k))).map Property.value)
    ∧ (to_map props).length = (props.map Property.key).dedup.length :=
  ⟨fun k => lookup_to_map props k, to_map_length props⟩

/-- C5: on every input buffer made only of blank lines and comment lines
(`Skippable`), `parse` succeeds and returns the empty entry sequence. -/
theorem C5_blank_comment_only (i : Input) (h : Skippable i) :
    parse i = some [] := by
  obtain ⟨os, hfp, hos⟩ := skippable_fparser i.length i le_rfl h
  have hflat : os.filterMap id = [] := by
    rw [List.filterMap_eq_nil_iff]
    exact hos
  simp only [parse, parser, hfp, hflat]

theorem C5_witness : Skippable [35, 120] ∧ parse [35, 120] = some [] := by
  have hsk : Skippable [35, 120] := by
    have h := Skippable.commentEof [] 35 [120]
      (by intro c hc; simp at hc) (by simp) (by decide)
    simpa using h
  exact ⟨hsk, C5_blank_comment_only [35, 120] hsk⟩

/-- C6: parsing the bytes `abc\` + end-of-line + three spaces + `def` as a
key yields the single key `abcdef`: the continuation pair and the leading
whitespace of the next physical line are removed, and no newline byte
appears in the result. -/
theorem C6_continuation_key (e : Input) (he : IsEol e) :
    consume_key ([97, 98, 99, 92] ++ e ++ [32, 32, 32, 100, 101, 102]) =
      some ([], [97, 98, 99, 100, 101, 102]) := by
  cases he with
  | crlf => decide
  | cr => decide
  | lf => decide

theorem C6_witness : IsEol [10] ∧
    consume_key ([97, 98, 99, 92] ++ [10] ++ [32, 32, 32, 100, 101, 102]) =
      some ([], [97, 98, 99, 100, 101, 102]) :=
  ⟨IsEol.lf, C6_continuation_key [10] IsEol.lf⟩

/-- C7: parsing `key\:with\:colons=value` yields exactly one entry with
key `key:with:colons` and value `value`: escaped separators are literal
key characters, not separators. -/
theorem C7_escaped_colons : parse c7Input = some [⟨c7Key, valueBytes⟩] := by
  decide

/-- C8: for every byte other than `u`, CR and LF, the escaped-character
rule consumes a backslash plus that byte and yields exactly one character
through the fixed table `t`, `n`, `f`, `r`, `\`, identity otherwise. -/
theorem C8_escaped_char_rule (b : Nat) (rest : Input) (h117 : b ≠ 117)
    (h13 : b ≠ 13) (h10 : b ≠ 10) :
    escape_in_key_or_value (92 :: b :: rest) = some (rest, escaped_char_to_char b)
    ∧ escaped_char_to_char 116 = 9 ∧ escaped_char_to_char 110 = 10
    ∧ escaped_char_to_char 102 = 12 ∧ escaped_char_to_char 114 = 13
    ∧ escaped_char_to_char 92 = 92
    ∧ (b ≠ 116 → b ≠ 110 → b ≠ 102 → b ≠ 114 → b ≠ 92 →
        escaped_char_to_char b = b) := by
  refine ⟨?_, rfl, rfl, rfl, rfl, rfl, ?_⟩
  · have htag : ptag [92] (92 :: b :: rest) = some (b :: rest, ()) :=
      ptag_prefix [92] (b :: rest)
    have hnone : pNoneOf [117, 13, 10] (b :: rest) = some (rest, b) := by
      simp only [pNoneOf]
      rw [if_neg (by simp [h117, h13, h10])]
    simp [escape_in_key_or_value, pbind, htag, hnone, ppure]
  · intro h1 h2 h3 h4 h5
    simp [escaped_char_to_char, h1, h2, h3, h4, h5]

theorem C8_witness :
    ((64 : Nat) ≠ 117 ∧ (64 : Nat) ≠ 13 ∧ (64 : Nat) ≠ 10) ∧
      escape_in_key_or_value [92, 64] = some ([], escaped_char_to_char 64) ∧
      escaped_char_to_char 64 = 64 := by
  refine ⟨by decide, ?_, by decide⟩
  exact (C8_escaped_char_rule 64 [] (by decide) (by decide) (by decide)).1

/-- C9: `parser` succeeds only when the driver reaches end of input with
nothing left unconsumed, and then the public `parse` returns exactly the
collected entries; an input the driver cannot fully consume gives `none`
(the model of a `ParseError`) and never a partial result. -/
theorem C9_full_consumption (i r : Input) (v : List Property)
    (h : parser i = some (r, v)) : r = [] ∧ parse i = some v := by
  have hr : r = [] := by
    simp only [parser] at h
    cases hfp : _fparser i with
    | none =>
      simp only [hfp] at h
      exact Option.noConfusion h
    | some rv =>
      obtain ⟨r2, opts, e⟩ := rv
      simp only [hfp, Option.some.injEq, Prod.mk.injEq] at h
      obtain ⟨hre, -⟩ := h
      have hfp2 : manyTillF driver_step pEof (i.length + 1) i =
          some (r2, (opts, e)) := hfp
      rw [← hre]
      exact manyTillF_pEof_rest (i.length + 1) i r2 (opts, e) hfp2
  refine ⟨hr, ?_⟩
  simp only [parse, h]

theorem C9_witness :
    parser [97, 61, 98] = some ([], [⟨[97], [98]⟩]) ∧
      (([] : Input) = [] ∧ parse [97, 61, 98] = some [⟨[97], [98]⟩]) := by
  refine ⟨by decide, ?_⟩
  exact C9_full_consumption [97, 61, 98] [] [⟨[97], [98]⟩] (by decide)

/-- C10: a lone backslash just before end of input in value position makes
the whole parse fail: `parse` on the bytes of `key=value` followed by a
single final backslash returns an error. -/
theorem C10_trailing_backslash_error : parse c10Input = none := by decide

end PropsRs
